import Mathlib

/-!
Verification of the `cage` project-materialization core against its
natural-language specification.

The development shallowly embeds the relevant Rust sources:

* `src/ext/context.rs` — `human_alias` alias derivation for source references;
* `src/hook.rs`        — `HookManager::invoke`, the directory-convention hook
                         runner;
* `src/project.rs`     — the project orchestrator: `output_helper`, `output`,
                         `export` and the path helpers they use;
* `src/args/act_on.rs` — `ActOn` target resolution;
* `src/main.rs`        — `to_acts_on`, the CLI mapping from operand lists to
                         `ActOn` values.

Filesystem paths manipulated by the orchestrator are embedded as component
lists (`List String`, mirroring Rust `PathBuf` component joins); the string
paths inside `human_alias` are embedded as character lists so that every
operation is structurally recursive and kernel-evaluable.  External
collaborators (the `url` crate's parser, the compose-document model, the
command runner and the real filesystem) are modelled abstractly: documents are
opaque payloads, per-pod document processing is a parameter, and filesystem
mutation is recorded as an explicit trace of operations.
-/

namespace Cage

/-! ## Error model (§7 of the spec) -/

/-- Error kinds surfaced by the embedded operations, following §7 of the
specification.  `destinationExists` carries the offending directory,
`nameResolutionFailure` and `aliasDerivationFailure` carry the offending
name or source reference, matching the descriptive errors in the source. -/
inductive Error where
  | destinationExists (dir : List String)
  | nameResolutionFailure (name : String)
  | aliasDerivationFailure (source : String)
  | externalCommandFailure (script : String)
  | transformFailure (pod : String)
  deriving DecidableEq, Repr

/-! ## Path primitives

Rust `Path::components`, `Path::file_name` and `Path::file_stem`, embedded
over character lists.  `splitChar` mirrors `String::splitOn` for a single
separator character but is structurally recursive, so the kernel can
evaluate it on concrete inputs. -/

/-- Split a character list at every occurrence of `c`.  The result is never
empty and concatenating its pieces interleaved with `c` restores the input. -/
def splitChar (c : Char) : List Char → List (List Char)
  | [] => [[]]
  | x :: xs =>
    match splitChar c xs with
    | [] => [[x]]
    | y :: ys => if x = c then [] :: y :: ys else (x :: y) :: ys

/-- Path components in the sense of Rust `Path::components`: split on `/`,
dropping empty pieces (repeated or trailing separators and the root) and `.`
pieces, which `components` normalizes away. -/
def pathComponents (p : List Char) : List (List Char) :=
  (splitChar '/' p).filter (fun comp => comp != [] && comp != ['.'])

/-- Rust `Path::file_name`: the final component, unless the path has no
component at all or terminates in `..`. -/
def fileName (p : List Char) : Option (List Char) :=
  match (pathComponents p).getLast? with
  | none => none
  | some comp => if comp = ['.', '.'] then none else some comp

/-- Join character-list pieces with a literal dot, the inverse of splitting a
file name on the dot character. -/
def joinDots : List (List Char) → List Char
  | [] => []
  | [piece] => piece
  | piece :: rest => piece ++ '.' :: joinDots rest

/-- The stem of a file name, per Rust `Path::file_stem` on the name itself:
the whole name if it has no embedded dot, or if the portion before the final
dot is empty (a dot-file such as `.hidden`); otherwise the portion before the
final dot. -/
def stemOfName (n : List Char) : List Char :=
  match splitChar '.' n with
  | [] => n
  | [_] => n
  | pieces => let before := joinDots pieces.dropLast
              if before = [] then n else before

/-- Rust `Path::file_stem`: the stem of the file name, when a file name
exists. -/
def fileStem (p : List Char) : Option (List Char) :=
  (fileName p).map stemOfName

/-! ## URL model

`human_alias` calls `git_url.to_url()` and then reads `url.path()` and
`url.fragment()`.  The `url` crate and `compose_yml`'s `GitUrl` are external
collaborators, so their parse is modelled here for the URL shapes
`compose_yml` accepts as git URLs: scheme URLs (`https://host/path`,
`git://host/path`, ...) and scp-style URLs (`git@host:path`, which `to_url`
rewrites to `ssh://git@host/path`). -/

/-- The remainder of a URL after the first `scheme://` introducer, when one
is present. -/
def afterScheme : List Char → Option (List Char)
  | [] => none
  | ':' :: '/' :: '/' :: rest => some rest
  | _ :: rest => afterScheme rest

/-- Models `url::Url::path` for git URLs: everything from the first slash
after the authority, with any fragment and query stripped; for scp-style
URLs, the part after the colon with a leading slash, matching `to_url`'s
rewrite.  Empty when the URL has no path. -/
def urlPath (l : List Char) : List Char :=
  let noExtras := (l.takeWhile (· ≠ '#')).takeWhile (· ≠ '?')
  match afterScheme noExtras with
  | some rest => rest.dropWhile (· ≠ '/')
  | none =>
    match noExtras.dropWhile (· ≠ ':') with
    | ':' :: rest => '/' :: rest
    | _ => []

/-- Models `url::Url::fragment`: everything after the first `#`, when the
URL contains one. -/
def urlFragment (l : List Char) : Option (List Char) :=
  match l.dropWhile (· ≠ '#') with
  | '#' :: rest => some rest
  | _ => none

/-! ## Alias derivation (`src/ext/context.rs`, `human_alias`) -/

/-- A `compose_yml::v2::Context` source reference: either a git URL or a
local directory path. -/
inductive Context where
  | gitUrl (url : String)
  | dir (path : String)
  deriving DecidableEq, Repr

/-- Embedding of `ContextExt::human_alias` from `src/ext/context.rs`: for a
git URL, the file stem of the URL's path with `_<fragment>` appended when a
fragment is present; for a directory, the file stem of the path; an
`AliasDerivationFailure` when no stem exists.  (The UTF-8 check
`to_str_or_err` is vacuous over Lean strings and is omitted.) -/
def human_alias : Context → Except Error String
  | Context.gitUrl u =>
    match fileStem (urlPath u.data) with
    | none => Except.error (Error.aliasDerivationFailure u)
    | some base =>
      match urlFragment u.data with
      | none => Except.ok (String.mk base)
      | some frag => Except.ok (String.mk (base ++ '_' :: frag))
  | Context.dir p =>
    match fileStem p.data with
    | none => Except.error (Error.aliasDerivationFailure p)
    | some stem => Except.ok (String.mk stem)

/-- The stem the derivation is taken from: the stem of the URL path for a git
URL, the stem of the path for a directory.  Used to state exactly when
`human_alias` fails. -/
def sourceStem : Context → Option (List Char)
  | Context.gitUrl u => fileStem (urlPath u.data)
  | Context.dir p => fileStem p.data

/-! ## Hook runner (`src/hook.rs`, `HookManager::invoke`)

The directory listing, file types and the command runner are external
capabilities; they enter the embedding as explicit arguments: `dirExists`
tells whether `<hooks_dir>/<hook_name>.d` exists, `entries` is that
directory's listing (a name plus a regular-file flag), and `run` gives each
script's exit outcome.  `invoke` returns the sequence of commands actually
executed — each a script path paired with the injected environment — and the
error of the first failing script, if any. -/

/-- A directory entry as observed by `fs::read_dir`: its file name and
whether `file_type()` reports a regular file. -/
structure DirEntry where
  name : String
  isFile : Bool
  deriving DecidableEq, Repr

/-- Keeps track of hook scripts, mirroring the `HookManager` struct: a
directory containing `<event>.d` subdirectories. -/
structure HookManager where
  hooks_dir : String
  deriving DecidableEq, Repr

/-- The filter from `HookManager::invoke`: a hook script is a regular file
whose name does not start with a dot and ends with the `.hook` extension. -/
def isHookEntry (e : DirEntry) : Bool :=
  e.isFile && !(['.'].isPrefixOf e.name.data)
    && (['.', 'h', 'o', 'o', 'k'].isSuffixOf e.name.data)

/-- Boolean lexicographic order on character lists, the order in which Rust
`Vec::sort` arranges the paths (for paths sharing the directory prefix,
`PathBuf` ordering is the lexicographic order of the file names). -/
def lexLe : List Char → List Char → Bool
  | [], _ => true
  | _ :: _, [] => false
  | a :: as, b :: bs =>
    if a = b then lexLe as bs
    else decide (a.val.toNat < b.val.toNat)

/-- The lexicographic order on full path strings used to sort hook
scripts. -/
def pathLe (a b : String) : Prop := lexLe a.data b.data = true

instance : DecidableRel pathLe := fun a b =>
  instDecidableEqBool (lexLe a.data b.data) true

/-- The candidate scripts of an event directory: the hook entries' full
paths, sorted (Rust `Vec::sort` over `PathBuf`s that share the directory
prefix sorts them lexicographically). -/
def hookScripts (dDir : String) (entries : List DirEntry) : List String :=
  ((entries.filter isHookEntry).map (fun e => dDir ++ "/" ++ e.name)).insertionSort
    pathLe

/-- Run the hook scripts in order, injecting every environment entry into
each command; the first failing script is still recorded as executed, its
error is surfaced, and the remaining scripts are skipped. -/
def runHooks (env : List (String × String)) (run : String → Except Error Unit) :
    List String → List (String × List (String × String)) × Option Error
  | [] => ([], none)
  | s :: rest =>
    match run s with
    | Except.error e => ([(s, env)], some e)
    | Except.ok _ =>
      let done := runHooks env run rest
      ((s, env) :: done.1, done.2)

/-- Embedding of `HookManager::invoke`: succeed trivially when the event
directory `<hooks_dir>/<hook_name>.d` does not exist; otherwise filter and
sort the hook scripts and run them in order. -/
def HookManager.invoke (self : HookManager) (hook_name : String)
    (dirExists : Bool) (entries : List DirEntry)
    (env : List (String × String)) (run : String → Except Error Unit) :
    List (String × List (String × String)) × Option Error :=
  let d_dir := self.hooks_dir ++ "/" ++ hook_name ++ ".d"
  if !dirExists then ([], none)
  else runHooks env run (hookScripts d_dir entries)

/-! ## Project orchestrator (`src/project.rs`)

The compose-document model is an external collaborator: documents are opaque
payloads and the per-pod `merged_file` → `make_standalone` → plugin
`transform` sequence is a `process` parameter, an `Except` so a failing step
aborts the pod's materialization as in the source.  Filesystem paths are
component lists (`PathBuf::join` is list append) and filesystem mutation is
returned as an explicit trace of operations together with the first error,
if any. -/

/-- The `PodType` tag from `pod.rs`: affects output placement under
`export`. -/
inductive PodType where
  | service
  | task
  deriving DecidableEq, Repr

/-- A pod: its name, its type, and the names of the services it declares
(the latter consumed only by name resolution). -/
structure Pod where
  name : String
  pod_type : PodType
  serviceNames : List String
  deriving DecidableEq, Repr

/-- An override (deployment target), identified by its name. -/
structure Override where
  name : String
  deriving DecidableEq, Repr

/-- The project fields the embedded operations consume, mirroring the
`Project` struct: directories as component lists plus the loaded pods and
overrides. -/
structure Project where
  name : String
  root_dir : List String
  src_dir : List String
  output_dir : List String
  pods : List Pod
  overrides : List Override
  deriving DecidableEq, Repr

/-- An opaque compose document payload. -/
abbrev Doc := String

/-- The `Operation` tag from `plugins.rs`: local materialization versus
portable export. -/
inductive Operation where
  | output
  | export
  deriving DecidableEq, Repr

/-- A recorded filesystem mutation: `remove_dir_all`, the `mkdir -p` of
`with_guaranteed_parent`, or a document write. -/
inductive FsOp where
  | removeDirAll (path : List String)
  | createDirAll (path : List String)
  | writeFile (path : List String) (doc : Doc)
  deriving DecidableEq, Repr

/-- The path a filesystem operation touches. -/
def FsOp.path : FsOp → List String
  | FsOp.removeDirAll p => p
  | FsOp.createDirAll p => p
  | FsOp.writeFile p _ => p

/-- The document writes of a trace, in order. -/
def writesOf (trace : List FsOp) : List (List String × Doc) :=
  trace.filterMap fun op =>
    match op with
    | FsOp.writeFile p d => some (p, d)
    | _ => none

/-- Embedding of `Project::output_pods_dir`: `output_dir` joined with
`pods`. -/
def output_pods_dir (proj : Project) : List String :=
  proj.output_dir ++ ["pods"]

/-- The per-pod destination computed inside `output_helper`: `.yml` file
named after the pod, under `tasks/` exactly for a Task pod under
`Export`. -/
def rel_path (op : Operation) (pod : Pod) : List String :=
  match op, pod.pod_type with
  | Operation.export, PodType.task => ["tasks", pod.name ++ ".yml"]
  | _, _ => [pod.name ++ ".yml"]

/-- Embedding of `Project::output_helper`: for each pod in order, guarantee
the destination's parent directory, run the merge/standalone/transform
sequence (the `process` parameter, given the override, the operation and the
pod), and write the result; a failing step aborts the remaining pods and
surfaces its error. -/
def Project.output_helper (ovr : Override) (op : Operation)
    (export_dir : List String) (pods : List Pod)
    (process : Override → Operation → Pod → Except Error Doc) :
    List FsOp × Option Error :=
  match pods with
  | [] => ([], none)
  | pod :: rest =>
    let out_path := export_dir ++ rel_path op pod
    let ensured := FsOp.createDirAll out_path.dropLast
    match process ovr op pod with
    | Except.error e => ([ensured], some e)
    | Except.ok doc =>
      let done := Project.output_helper ovr op export_dir rest process
      (ensured :: FsOp.writeFile out_path doc :: done.1, done.2)

/-- Embedding of `Project::output`: delete the output pods directory when it
exists (`outPodsExists` reports what `out_pods.exists()` sees), then
materialize every pod with `Operation::output` into it. -/
def Project.output (proj : Project) (ovr : Override) (outPodsExists : Bool)
    (process : Override → Operation → Pod → Except Error Doc) :
    List FsOp × Option Error :=
  let out_pods := output_pods_dir proj
  let removed := if outPodsExists then [FsOp.removeDirAll out_pods] else []
  let done := Project.output_helper ovr Operation.output out_pods proj.pods process
  (removed ++ done.1, done.2)

/-- Embedding of `Project::export`: refuse to clobber an existing
destination (`destExists` reports what `export_dir.exists()` sees), else
materialize every pod with `Operation::export` into it.  (The missing
default-tags warning is a log line, not an effect, and is omitted.) -/
def Project.export (proj : Project) (ovr : Override) (export_dir : List String)
    (destExists : Bool)
    (process : Override → Operation → Pod → Except Error Doc) :
    List FsOp × Option Error :=
  if destExists then ([], some (Error.destinationExists export_dir))
  else Project.output_helper ovr Operation.export export_dir proj.pods process

/-! ## Target resolution (`src/args/act_on.rs` and `src/main.rs`) -/

/-- The names of pods, services or both to pass to one of the commands. -/
inductive ActOn where
  | All
  | Named (names : List String)
  deriving DecidableEq, Repr

/-- A resolved target: a whole pod, or one service of a pod. -/
inductive PodOrService where
  | pod (p : Pod)
  | service (p : Pod) (service_name : String)
  deriving DecidableEq, Repr

/-- Modelled from the spec: `Project::pod_or_service_or_err` is called from
`args/act_on.rs` but its definition is not among the provided sources.  Per
§4.4 it is "a lookup that may match either a pod or a specific service and
fails with a descriptive, name-carrying error if neither matches": try the
pod names first, then the pods' service names, and otherwise produce the
name-carrying `NameResolutionFailure`. -/
def Project.pod_or_service_or_err (proj : Project) (name : String) :
    Except Error PodOrService :=
  match proj.pods.find? (fun p => p.name == name) with
  | some p => Except.ok (PodOrService.pod p)
  | none =>
    match proj.pods.find? (fun p => p.serviceNames.contains name) with
    | some p => Except.ok (PodOrService.service p name)
    | none => Except.error (Error.nameResolutionFailure name)

/-- Embedding of the `PodsOrServices` iterator from `args/act_on.rs` as the
sequence it yields: under `All`, every pod of the project wrapped as the
`pod` variant; under `Named`, the per-name resolution results in the given
order. -/
def ActOn.pods_or_services (self : ActOn) (proj : Project) :
    List (Except Error PodOrService) :=
  match self with
  | ActOn.All => proj.pods.map (fun p => Except.ok (PodOrService.pod p))
  | ActOn.Named names => names.map (fun n => proj.pod_or_service_or_err n)

/-- Embedding of `to_acts_on` from `src/main.rs`: an empty operand list
falls back to `All`, a non-empty one becomes `Named`. -/
def to_acts_on (names : List String) : ActOn :=
  if names.isEmpty then ActOn.All else ActOn.Named names

/-! ## A small concrete project used by the examples -/

/-- A pod named `x` declaring one service `web`. -/
def exPod : Pod :=
  ⟨"x", PodType.service, ["web"]⟩

/-- A one-pod project for exercising name resolution concretely. -/
def exProject : Project :=
  ⟨"hello", ["hello"], ["hello", "src"], ["hello", ".conductor"], [exPod],
    [⟨"development"⟩]⟩

/-! ## Basic facts about the path primitives -/

theorem splitChar_ne_nil (c : Char) (l : List Char) : splitChar c l ≠ [] := by
  cases l with
  | nil => simp [splitChar]
  | cons x xs =>
    unfold splitChar
    cases h : splitChar c xs with
    | nil => simp
    | cons y ys => by_cases hx : x = c <;> simp [hx]

theorem ne_nil_of_mem_pathComponents {p comp : List Char}
    (h : comp ∈ pathComponents p) : comp ≠ [] := by
  have hf := List.of_mem_filter h
  have := (Bool.and_eq_true _ _).mp hf
  simpa using this.1

theorem fileName_ne_nil {p c : List Char} (h : fileName p = some c) : c ≠ [] := by
  unfold fileName at h
  cases hg : (pathComponents p).getLast? with
  | none => rw [hg] at h; exact absurd h (by simp)
  | some comp =>
    rw [hg] at h
    by_cases hdd : comp = ['.', '.']
    · simp [hdd] at h
    · simp [hdd] at h
      subst h
      exact ne_nil_of_mem_pathComponents (List.mem_of_getLast?_eq_some hg)

theorem stemOfName_ne_nil {n : List Char} (hn : n ≠ []) : stemOfName n ≠ [] := by
  unfold stemOfName
  cases h : splitChar '.' n with
  | nil => exact hn
  | cons piece rest =>
    cases rest with
    | nil => exact hn
    | cons q qs =>
      simp only []
      split
      · exact hn
      · assumption

theorem fileStem_ne_nil {p s : List Char} (h : fileStem p = some s) : s ≠ [] := by
  unfold fileStem at h
  cases hn : fileName p with
  | none => rw [hn] at h; exact absurd h (by simp)
  | some c =>
    rw [hn] at h
    simp only [Option.map_some', Option.some.injEq] at h
    have hc : c ≠ [] := fileName_ne_nil hn
    exact h ▸ stemOfName_ne_nil hc

/-! ## The sort order used for hook scripts is total and transitive -/

theorem lexLe_total : ∀ x y : List Char, lexLe x y = true ∨ lexLe y x = true := by
  intro x
  induction x with
  | nil => intro y; left; rfl
  | cons a as ih =>
    intro y
    cases y with
    | nil => right; rfl
    | cons b bs =>
      by_cases hab : a = b
      · subst hab
        simp only [lexLe, if_pos rfl]
        exact ih bs
      · have hv : a.val.toNat ≠ b.val.toNat := fun h => hab (Char.ext (UInt32.toNat.inj h))
        rcases Nat.lt_or_ge a.val.toNat b.val.toNat with hlt | hge
        · left; simp [lexLe, hab, hlt]
        · have hba : b ≠ a := fun h => hab h.symm
          have hbl : b.val.toNat < a.val.toNat :=
            Nat.lt_of_le_of_ne hge (fun h => hv h.symm)
          right; simp [lexLe, hba, hbl]

theorem lexLe_trans :
    ∀ (x y z : List Char), lexLe x y = true → lexLe y z = true → lexLe x z = true := by
  intro x
  induction x with
  | nil => intro y z _ _; rfl
  | cons a as ih =>
    intro y z hxy hyz
    cases y with
    | nil => simp [lexLe] at hxy
    | cons b bs =>
      cases z with
      | nil => simp [lexLe] at hyz
      | cons c cs =>
        by_cases hab : a = b
        · subst hab
          simp only [lexLe, if_pos rfl] at hxy
          by_cases hac : a = c
          · subst hac
            simp only [lexLe, if_pos rfl] at hyz ⊢
            exact ih bs cs hxy hyz
          · simp only [lexLe, if_neg hac] at hyz ⊢
            exact hyz
        · simp only [lexLe, if_neg hab, decide_eq_true_eq] at hxy
          by_cases hbc : b = c
          · subst hbc
            simp [lexLe, hab, hxy]
          · simp only [lexLe, if_neg hbc, decide_eq_true_eq] at hyz
            have hac : a.val.toNat < c.val.toNat := Nat.lt_trans hxy hyz
            have hane : a ≠ c := fun h => by
              subst h
              exact absurd hyz (Nat.lt_asymm hxy)
            simp [lexLe, hane, hac]

/-! ## Facts about the hook runner -/

theorem runHooks_env_all (env : List (String × String)) (run : String → Except Error Unit) :
    ∀ scripts : List String,
      ((runHooks env run scripts).1.map Prod.snd).all (fun v => v == env) = true := by
  intro scripts
  induction scripts with
  | nil => rfl
  | cons s rest ih =>
    unfold runHooks
    cases run s with
    | error e => simp
    | ok u => simpa using ih

/-! ## Facts about the orchestrator -/

theorem rel_path_ne_nil (op : Operation) (pod : Pod) : rel_path op pod ≠ [] := by
  cases op <;> cases hp : pod.pod_type <;> simp [rel_path, hp]

theorem writesOf_append (a b : List FsOp) : writesOf (a ++ b) = writesOf a ++ writesOf b := by
  unfold writesOf
  exact List.filterMap_append a b _

theorem output_helper_ok (ovr : Override) (op : Operation) (dir : List String)
    (docOf : Pod → Doc) : ∀ pods : List Pod,
    writesOf (Project.output_helper ovr op dir pods
        (fun _ _ p => Except.ok (docOf p))).1 =
      pods.map (fun p => (dir ++ rel_path op p, docOf p)) ∧
    (Project.output_helper ovr op dir pods
        (fun _ _ p => Except.ok (docOf p))).2 = none := by
  intro pods
  induction pods with
  | nil => exact ⟨rfl, rfl⟩
  | cons pod rest ih =>
    unfold Project.output_helper
    simp only [writesOf, List.filterMap_cons, List.map_cons]
    refine ⟨?_, ih.2⟩
    simpa [writesOf] using ih.1

theorem output_helper_scoped (ovr : Override) (op : Operation)
    (dir : List String) (process : Override → Operation → Pod → Except Error Doc) :
    ∀ (pods : List Pod) (fsop : FsOp),
      fsop ∈ (Project.output_helper ovr op dir pods process).1 →
      dir <+: fsop.path := by
  intro pods
  induction pods with
  | nil => intro fsop h; simp [Project.output_helper] at h
  | cons pod rest ih =>
    intro fsop h
    have hparent : (dir ++ rel_path op pod).dropLast = dir ++ (rel_path op pod).dropLast :=
      List.dropLast_append_of_ne_nil dir (rel_path_ne_nil op pod)
    unfold Project.output_helper at h
    cases hp : process ovr op pod with
    | error e =>
      rw [hp] at h
      simp only [List.mem_singleton] at h
      subst h
      rw [FsOp.path, hparent]
      exact List.prefix_append dir _
    | ok doc =>
      rw [hp] at h
      simp only [List.mem_cons] at h
      rcases h with h | h | h
      · subst h
        rw [FsOp.path, hparent]
        exact List.prefix_append dir _
      · subst h
        rw [FsOp.path]
        exact List.prefix_append dir _
      · exact ih fsop h

/-! ## The claims -/

/-- C1: alias derivation returns, for a git URL, the file stem of the URL
path's final segment with `_<fragment>` appended when the URL carries a
fragment, and for a local directory path the stem of its final component;
in particular `https://example.com/org/rails_hello.git` derives to
`rails_hello`, the same URL with fragment `dev` to `rails_hello_dev`, and
`../src/node_hello` to `node_hello`. -/
theorem human_alias_derivation :
    (∀ u : String, (human_alias (Context.gitUrl u)).toOption =
      (fileStem (urlPath u.data)).map (fun base =>
        String.mk (base ++ (match urlFragment u.data with
          | none => []
          | some frag => '_' :: frag)))) ∧
    (∀ p : String, (human_alias (Context.dir p)).toOption =
      (fileStem p.data).map String.mk) ∧
    human_alias (Context.gitUrl "https://example.com/org/rails_hello.git") =
      Except.ok "rails_hello" ∧
    human_alias (Context.gitUrl "https://example.com/org/rails_hello.git#dev") =
      Except.ok "rails_hello_dev" ∧
    human_alias (Context.dir "../src/node_hello") = Except.ok "node_hello" := by
  refine ⟨?_, ?_, rfl, rfl, rfl⟩
  · intro u
    cases h : fileStem (urlPath u.data) with
    | none => simp [human_alias, Except.toOption, h]
    | some base =>
      cases hf : urlFragment u.data with
      | none => simp [human_alias, Except.toOption, h, hf]
      | some frag => simp [human_alias, Except.toOption, h, hf]
  · intro p
    cases h : fileStem p.data with
    | none => simp [human_alias, Except.toOption, h]
    | some stem => simp [human_alias, Except.toOption, h]

/-- C8: alias derivation fails exactly when the source reference yields no
stem — a git URL whose path has no usable final segment (for example an
empty path) or a directory path with no final component (for example the
root) — and whenever it succeeds the returned alias is non-empty. -/
theorem alias_failure_condition :
    (∀ ctx : Context,
      match human_alias ctx with
      | Except.ok a => (sourceStem ctx).isSome = true ∧ a ≠ ""
      | Except.error _ => sourceStem ctx = none) ∧
    human_alias (Context.gitUrl "https://example.com") =
      Except.error (Error.aliasDerivationFailure "https://example.com") ∧
    human_alias (Context.dir "/") =
      Except.error (Error.aliasDerivationFailure "/") := by
  refine ⟨?_, rfl, rfl⟩
  intro ctx
  cases ctx with
  | gitUrl u =>
    cases h : fileStem (urlPath u.data) with
    | none => simp [human_alias, sourceStem, h]
    | some base =>
      have hb : base ≠ [] := fileStem_ne_nil h
      cases hf : urlFragment u.data with
      | none => simp [human_alias, sourceStem, h, hf, String.ext_iff, hb]
      | some frag => simp [human_alias, sourceStem, h, hf, String.ext_iff]
  | dir p =>
    cases h : fileStem p.data with
    | none => simp [human_alias, sourceStem, h]
    | some stem =>
      have hb : stem ≠ [] := fileStem_ne_nil h
      simp [human_alias, sourceStem, h, String.ext_iff, hb]

/-- C4: hook invocation over an existing event directory executes exactly the
regular files whose name does not start with a dot and ends with `.hook`, in
lexicographically sorted order of their full paths, injects every supplied
environment entry into each executed command, and stops at the first failing
script, surfacing its error: concretely, of `b.hook`, `a.hook`,
`.hidden.hook` and `c.txt` only `a.hook` then `b.hook` run, and when
`a.hook` fails `b.hook` is never executed. -/
theorem hook_invocation_order :
    (∀ (dDir : String) (entries : List DirEntry) (s : String),
      s ∈ hookScripts dDir entries ↔
        ∃ e ∈ entries, e.isFile = true ∧ (['.'].isPrefixOf e.name.data) = false ∧
          (['.', 'h', 'o', 'o', 'k'].isSuffixOf e.name.data) = true ∧
          s = dDir ++ "/" ++ e.name) ∧
    (∀ (dDir : String) (entries : List DirEntry),
      List.Sorted pathLe (hookScripts dDir entries)) ∧
    (∀ (hm : HookManager) (name : String) (entries : List DirEntry)
        (env : List (String × String)) (run : String → Except Error Unit),
      ((hm.invoke name true entries env run).1.map Prod.snd).all
        (fun v => v == env) = true) ∧
    HookManager.invoke ⟨"cfg"⟩ "up" true
        [⟨"b.hook", true⟩, ⟨"a.hook", true⟩, ⟨".hidden.hook", true⟩, ⟨"c.txt", true⟩]
        [("TARGET", "dev")] (fun _ => Except.ok ()) =
      ([("cfg/up.d/a.hook", [("TARGET", "dev")]),
        ("cfg/up.d/b.hook", [("TARGET", "dev")])], none) ∧
    HookManager.invoke ⟨"cfg"⟩ "up" true
        [⟨"b.hook", true⟩, ⟨"a.hook", true⟩, ⟨".hidden.hook", true⟩, ⟨"c.txt", true⟩]
        [("TARGET", "dev")]
        (fun p => if p = "cfg/up.d/a.hook"
          then Except.error (Error.externalCommandFailure p) else Except.ok ()) =
      ([("cfg/up.d/a.hook", [("TARGET", "dev")])],
        some (Error.externalCommandFailure "cfg/up.d/a.hook")) := by
  refine ⟨?_, ?_, ?_, by decide, by decide⟩
  · intro dDir entries s
    simp only [hookScripts, List.mem_insertionSort, List.mem_map, List.mem_filter,
      isHookEntry, Bool.and_eq_true, Bool.not_eq_true']
    constructor
    · rintro ⟨e, ⟨he, ⟨⟨hf, hp⟩, hs⟩⟩, heq⟩
      exact ⟨e, he, hf, hp, hs, heq.symm⟩
    · rintro ⟨e, he, hf, hp, hs, heq⟩
      exact ⟨e, ⟨he, ⟨⟨hf, hp⟩, hs⟩⟩, heq.symm⟩
  · intro dDir entries
    exact @List.sorted_insertionSort String pathLe _ ⟨fun a b => lexLe_total a.data b.data⟩
      ⟨fun a b c => lexLe_trans a.data b.data c.data⟩ _
  · intro hm name entries env run
    unfold HookManager.invoke
    simp only [Bool.not_true, if_false]
    exact runHooks_env_all env run _

/-- C9: when the convention directory `<hooks_root>/<event>.d` does not
exist, hook invocation succeeds trivially, executing no command and
reporting no error. -/
theorem missing_hooks_dir_is_success :
    ∀ (hm : HookManager) (name : String) (entries : List DirEntry)
      (env : List (String × String)) (run : String → Except Error Unit),
      hm.invoke name false entries env run = ([], none) := by
  intro hm name entries env run
  rfl

/-- C2: materialization under `Export` writes a Task pod to
`<export_dir>/tasks/<pod>.yml` and a Service pod to `<export_dir>/<pod>.yml`,
while `output` writes every pod, of either type, flat to
`<output_dir>/pods/<pod>.yml`; both process every pod of the project. -/
theorem materialization_placement :
    (∀ (ovr : Override) (dir : List String) (pods : List Pod) (docOf : Pod → Doc),
      writesOf (Project.output_helper ovr Operation.export dir pods
          (fun _ _ p => Except.ok (docOf p))).1 =
        pods.map (fun p =>
          ((match p.pod_type with
            | PodType.task => dir ++ ["tasks", p.name ++ ".yml"]
            | PodType.service => dir ++ [p.name ++ ".yml"]), docOf p)) ∧
      (Project.output_helper ovr Operation.export dir pods
          (fun _ _ p => Except.ok (docOf p))).2 = none) ∧
    (∀ (proj : Project) (ovr : Override) (outPodsExists : Bool) (docOf : Pod → Doc),
      writesOf (proj.output ovr outPodsExists (fun _ _ p => Except.ok (docOf p))).1 =
        proj.pods.map (fun p => (output_pods_dir proj ++ [p.name ++ ".yml"], docOf p)) ∧
      (proj.output ovr outPodsExists (fun _ _ p => Except.ok (docOf p))).2 = none) := by
  constructor
  · intro ovr dir pods docOf
    have h := output_helper_ok ovr Operation.export dir docOf pods
    refine ⟨?_, h.2⟩
    rw [h.1]
    apply List.map_congr_left
    intro p _
    cases hp : p.pod_type <;> simp [rel_path, hp]
  · intro proj ovr e docOf
    have h := output_helper_ok ovr Operation.output (output_pods_dir proj) docOf proj.pods
    constructor
    · have hsplit : (proj.output ovr e (fun _ _ p => Except.ok (docOf p))).1 =
          (if e then [FsOp.removeDirAll (output_pods_dir proj)] else []) ++
            (Project.output_helper ovr Operation.output (output_pods_dir proj)
              proj.pods (fun _ _ p => Except.ok (docOf p))).1 := rfl
      have hrem : writesOf (if e then [FsOp.removeDirAll (output_pods_dir proj)] else []) = [] := by
        cases e <;> rfl
      rw [hsplit, writesOf_append, hrem, List.nil_append, h.1]
      apply List.map_congr_left
      intro p _
      simp [rel_path]
    · exact h.2

/-- C3: with a destination that already exists, `export` fails immediately
with the `DestinationExists` error for that directory, and its filesystem
trace is empty — nothing is merged, transformed or written. -/
theorem export_no_clobber :
    ∀ (proj : Project) (ovr : Override) (dir : List String)
      (process : Override → Operation → Pod → Except Error Doc),
      proj.export ovr dir true process = ([], some (Error.destinationExists dir)) := by
  intro proj ovr dir process
  rfl

/-- C7: every `output` trace is the removal of the prior
`<output_dir>/pods` subtree (present exactly when that subtree exists)
followed by the regeneration writes, and every operation in the trace —
removal, directory creation or write — touches only paths inside
`<output_dir>/pods`. -/
theorem output_delete_then_regenerate_scoped :
    ∀ (proj : Project) (ovr : Override) (outPodsExists : Bool)
      (process : Override → Operation → Pod → Except Error Doc),
      (proj.output ovr outPodsExists process).1 =
        (if outPodsExists then [FsOp.removeDirAll (output_pods_dir proj)] else []) ++
          (Project.output_helper ovr Operation.output (output_pods_dir proj)
            proj.pods process).1 ∧
      ((proj.output ovr outPodsExists process).1.all
        (fun op => (output_pods_dir proj).isPrefixOf op.path)) = true := by
  intro proj ovr e process
  refine ⟨rfl, ?_⟩
  rw [List.all_eq_true]
  intro fsop hmem
  rw [show (proj.output ovr e process).1 =
      (if e then [FsOp.removeDirAll (output_pods_dir proj)] else []) ++
        (Project.output_helper ovr Operation.output (output_pods_dir proj)
          proj.pods process).1 from rfl] at hmem
  rw [List.mem_append] at hmem
  rw [ List.isPrefixOf_iff_prefix]
  rcases hmem with hmem | hmem
  · cases e with
    | false => exact absurd hmem (by simp)
    | true =>
      have heq : fsop = FsOp.removeDirAll (output_pods_dir proj) := by simpa using hmem
      rw [heq]
      exact List.prefix_refl _
  · exact output_helper_scoped ovr Operation.output (output_pods_dir proj)
      process proj.pods fsop hmem

/-- C5: resolving `ActOn::All` yields exactly the project's pods, in
declaration order, each a successful result wrapped as the pod variant. -/
theorem act_on_all_yields_pods :
    ∀ proj : Project,
      ActOn.All.pods_or_services proj =
        proj.pods.map (fun p => Except.ok (PodOrService.pod p)) := by
  intro proj
  rfl

/-- C6: resolving `ActOn::Named(names)` yields one resolution result per
name in the given order with duplicates preserved, and a name matching
neither a pod nor a service contributes a name-carrying failure at its
position without disturbing earlier successes: on the one-pod example
project, `Named(["x","missing"])` yields the success for `x` then the
failure for `missing`. -/
theorem act_on_named_resolution :
    (∀ (proj : Project) (names : List String),
      (ActOn.Named names).pods_or_services proj =
        names.map (fun n => proj.pod_or_service_or_err n)) ∧
    (ActOn.Named ["x", "missing"]).pods_or_services exProject =
      [Except.ok (PodOrService.pod exPod),
       Except.error (Error.nameResolutionFailure "missing")] ∧
    (ActOn.Named ["x", "x"]).pods_or_services exProject =
      [Except.ok (PodOrService.pod exPod), Except.ok (PodOrService.pod exPod)] ∧
    (ActOn.Named ["web"]).pods_or_services exProject =
      [Except.ok (PodOrService.service exPod "web")] := by
  exact ⟨fun _ _ => rfl, rfl, rfl, rfl⟩

/-- C10: resolving `ActOn::Named` with an empty name list yields the empty
sequence — no items and no error — while the fall-back of an empty operand
list to `All` happens in the CLI layer's `to_acts_on`, before an `ActOn`
value is built. -/
theorem act_on_named_empty_yields_nothing :
    (∀ proj : Project, (ActOn.Named []).pods_or_services proj = []) ∧
    to_acts_on [] = ActOn.All ∧
    to_acts_on ["frontend"] = ActOn.Named ["frontend"] ∧
    (∀ names : List String,
      to_acts_on names = if names.isEmpty then ActOn.All else ActOn.Named names) := by
  exact ⟨fun _ => rfl, rfl, rfl, fun _ => rfl⟩

end Cage
